import Mathlib

/-!
Shallow embedding of scripts/csv_to_json.py, a one-pass converter from a CSV
reading log to a JSON array of records.  Python strings are modelled as lists
of characters (Str).  Every helper of the script (norm_tags, safe_int,
split_hyphen_lines, make_id, parse_likert, the header-tolerant get, and the
record-assembly loop) is translated into a Lean definition, and the properties
of the specification are proved about those definitions.
-/

set_option maxHeartbeats 1000000

/-- Python strings are modelled as lists of characters. -/
abbrev Str := List Char

/-- ASCII whitespace as recognised by Python's str.strip and by the regex
class of whitespace characters: space, tab, newline, carriage return,
vertical tab, form feed. -/
def pySpace (c : Char) : Bool :=
  c = ' ' || c = '\t' || c = '\n' || c = '\r' || c.toNat = 11 || c.toNat = 12

/-- Remove leading whitespace, as Python lstrip does. -/
def lstrip (l : Str) : Str := l.dropWhile pySpace

/-- Remove trailing whitespace, as Python rstrip does. -/
def rstrip (l : Str) : Str := (l.reverse.dropWhile pySpace).reverse

/-- Python str.strip: remove leading and trailing whitespace. -/
def strip (l : Str) : Str := rstrip (lstrip l)

theorem dropWhile_idem (p : Char → Bool) (l : Str) :
    List.dropWhile p (List.dropWhile p l) = List.dropWhile p l := by
  induction l with
  | nil => rfl
  | cons a l ih =>
      rw [List.dropWhile_cons]
      by_cases h : p a
      · simpa [h] using ih
      · simp [List.dropWhile_cons, h]

theorem dropWhile_cons_eq_self (p : Char → Bool) (c : Char) (l : Str)
    (h : List.dropWhile p (c :: l) = c :: l) : ¬ p c := by
  intro hp
  rw [List.dropWhile_cons, if_pos hp] at h
  have hs : List.dropWhile p l <:+ l := List.dropWhile_suffix p
  have hlen := hs.length_le
  have := congrArg List.length h
  simp at this
  omega

theorem dropWhile_eq_self_of_all (p : Char → Bool) (l : Str)
    (h : ∀ c ∈ l, ¬ p c) : List.dropWhile p l = l := by
  cases l with
  | nil => rfl
  | cons a t => rw [List.dropWhile_cons, if_neg (h a (by simp))]

theorem lstrip_idem (l : Str) : lstrip (lstrip l) = lstrip l :=
  dropWhile_idem pySpace l

theorem rstrip_idem (l : Str) : rstrip (rstrip l) = rstrip l := by
  unfold rstrip
  rw [List.reverse_reverse, dropWhile_idem]

theorem rstrip_eq_iff_reverse (l : Str) :
    rstrip l = l ↔ lstrip l.reverse = l.reverse := by
  unfold rstrip lstrip
  constructor
  · intro h
    have := congrArg List.reverse h
    rwa [List.reverse_reverse] at this
  · intro h
    rw [h, List.reverse_reverse]

theorem lstrip_suffix (l : Str) : lstrip l <:+ l := List.dropWhile_suffix pySpace

theorem rstrip_prefix_self (l : Str) : rstrip l <+: l := by
  have hs : List.dropWhile pySpace l.reverse <:+ l.reverse :=
    List.dropWhile_suffix pySpace
  have := List.reverse_prefix.mpr hs
  rwa [List.reverse_reverse] at this

theorem lstrip_eq_self_of_prefix (m m' : Str) (h : lstrip m = m) (hp : m' <+: m) :
    lstrip m' = m' := by
  cases m' with
  | nil => rfl
  | cons c t =>
      obtain ⟨rest, hrest⟩ := hp
      have hc : ¬ pySpace c := by
        apply dropWhile_cons_eq_self pySpace c (t ++ rest)
        rw [List.cons_append] at hrest
        rw [hrest]
        exact h
      unfold lstrip
      rw [List.dropWhile_cons, if_neg hc]

theorem strip_idem (l : Str) : strip (strip l) = strip l := by
  unfold strip
  have h1 : lstrip (rstrip (lstrip l)) = rstrip (lstrip l) :=
    lstrip_eq_self_of_prefix (lstrip l) (rstrip (lstrip l)) (lstrip_idem l)
      (rstrip_prefix_self (lstrip l))
  rw [h1, rstrip_idem]

theorem rstrip_eq_self_of_suffix (m m' : Str) (h : rstrip m = m) (hs : m' <:+ m) :
    rstrip m' = m' := by
  rw [rstrip_eq_iff_reverse] at h ⊢
  exact lstrip_eq_self_of_prefix m.reverse m'.reverse h (List.reverse_prefix.mpr hs)

theorem lstrip_strip (l : Str) : lstrip (strip l) = strip l :=
  lstrip_eq_self_of_prefix (lstrip l) (strip l) (lstrip_idem l) (rstrip_prefix_self (lstrip l))

theorem rstrip_strip (l : Str) : rstrip (strip l) = strip l := rstrip_idem (lstrip l)

theorem strip_eq_self_of_parts (l : Str) (h1 : lstrip l = l) (h2 : rstrip l = l) :
    strip l = l := by
  unfold strip
  rw [h1, h2]

theorem strip_strip_eq (l : Str) : strip (strip l) = strip l :=
  strip_eq_self_of_parts (strip l) (lstrip_strip l) (rstrip_strip l)

theorem strip_sublist_subset (l : Str) : ∀ c ∈ strip l, c ∈ l := by
  intro c hc
  have h1 : strip l <+: lstrip l := rstrip_prefix_self (lstrip l)
  have h2 : lstrip l <:+ l := lstrip_suffix l
  exact h2.subset (h1.subset hc)

theorem strip_eq_self_of_no_space (l : Str) (h : ∀ c ∈ l, ¬ pySpace c) :
    strip l = l := by
  have h1 : lstrip l = l := dropWhile_eq_self_of_all pySpace l h
  have h2 : rstrip l = l := by
    rw [rstrip_eq_iff_reverse]
    exact dropWhile_eq_self_of_all pySpace l.reverse
      (fun c hc => h c (List.mem_reverse.mp hc))
  exact strip_eq_self_of_parts l h1 h2

theorem rstrip_eq_nil_iff (l : Str) : rstrip l = [] ↔ ∀ c ∈ l, pySpace c := by
  unfold rstrip
  rw [List.reverse_eq_nil_iff, List.dropWhile_eq_nil_iff]
  constructor
  · intro h c hc
    exact h c (List.mem_reverse.mpr hc)
  · intro h c hc
    exact h c (List.mem_reverse.mp hc)

theorem strip_eq_nil_iff (l : Str) : strip l = [] ↔ ∀ c ∈ l, pySpace c := by
  unfold strip
  rw [rstrip_eq_nil_iff]
  constructor
  · intro h c hc
    by_cases hp : pySpace c
    · exact hp
    · exfalso
      have hsplit := List.takeWhile_append_dropWhile (p := pySpace) (l := l)
      rw [← hsplit] at hc
      rcases List.mem_append.mp hc with h1 | h1
      · exact hp (List.mem_takeWhile_imp h1)
      · exact hp (h c h1)
  · intro h c hc
    exact h c ((lstrip_suffix l).subset hc)

/-- Python str.split with a one-character separator: keeps empty pieces, and
splitting the empty string yields one empty piece. -/
def splitOnChar (c : Char) : Str → List Str
  | [] => [[]]
  | d :: rest =>
    match splitOnChar c rest with
    | [] => [[d]]
    | p :: ps => if d = c then [] :: p :: ps else (d :: p) :: ps

theorem splitOnChar_ne_nil (c : Char) (l : Str) : splitOnChar c l ≠ [] := by
  induction l with
  | nil => simp [splitOnChar]
  | cons d rest ih =>
      rw [splitOnChar]
      rcases h : splitOnChar c rest with _ | ⟨p, ps⟩
      · simp
      · by_cases hd : d = c <;> simp [hd]

theorem mem_splitOnChar_subset (c : Char) (l : Str) :
    ∀ p ∈ splitOnChar c l, ∀ x ∈ p, x ∈ l := by
  induction l with
  | nil =>
      intro p hp x hx
      simp [splitOnChar] at hp
      subst hp
      simp at hx
  | cons d rest ih =>
      intro p hp x hx
      rw [splitOnChar] at hp
      rcases h : splitOnChar c rest with _ | ⟨q, qs⟩
      · exact absurd h (splitOnChar_ne_nil c rest)
      · rw [h] at hp
        by_cases hd : d = c
        · simp only [hd, if_true] at hp
          rcases List.mem_cons.mp hp with h1 | h1
          · subst h1; simp at hx
          · exact List.mem_cons_of_mem d (ih p (h ▸ h1) x hx)
        · simp only [hd, if_false] at hp
          rcases List.mem_cons.mp hp with h1 | h1
          · subst h1
            rcases List.mem_cons.mp hx with h2 | h2
            · subst h2; exact List.mem_cons_self x rest
            · exact List.mem_cons_of_mem d (ih q (by rw [h]; simp) x h2)
          · exact List.mem_cons_of_mem d (ih p (by rw [h]; simp [h1]) x hx)

theorem sep_not_mem_splitOnChar (c : Char) (l : Str) :
    ∀ p ∈ splitOnChar c l, c ∉ p := by
  induction l with
  | nil =>
      intro p hp
      simp [splitOnChar] at hp
      subst hp
      simp
  | cons d rest ih =>
      intro p hp
      rw [splitOnChar] at hp
      rcases h : splitOnChar c rest with _ | ⟨q, qs⟩
      · exact absurd h (splitOnChar_ne_nil c rest)
      · rw [h] at hp
        by_cases hd : d = c
        · simp only [hd, if_true] at hp
          rcases List.mem_cons.mp hp with h1 | h1
          · subst h1; simp
          · exact ih p (h ▸ h1)
        · simp only [hd, if_false] at hp
          rcases List.mem_cons.mp hp with h1 | h1
          · subst h1
            intro hc
            rcases List.mem_cons.mp hc with h2 | h2
            · exact hd h2.symm
            · exact ih q (by rw [h]; simp) h2
          · exact ih p (by rw [h]; simp [h1])

theorem splitOnChar_eq_single (c : Char) (l : Str) (h : c ∉ l) :
    splitOnChar c l = [l] := by
  induction l with
  | nil => rfl
  | cons d rest ih =>
      rw [splitOnChar]
      have hrest : c ∉ rest := fun hm => h (List.mem_cons_of_mem d hm)
      rw [ih hrest]
      have hd : d ≠ c := fun he => h (he ▸ List.mem_cons_self d rest)
      simp [hd]

theorem splitOnChar_cons_sep (c : Char) (l : Str) :
    splitOnChar c (c :: l) = [] :: splitOnChar c l := by
  rw [splitOnChar]
  rcases h : splitOnChar c l with _ | ⟨p, ps⟩
  · exact absurd h (splitOnChar_ne_nil c l)
  · simp

theorem splitOnChar_append_sep (c : Char) (p l : Str) (h : c ∉ p) :
    splitOnChar c (p ++ c :: l) = p :: splitOnChar c l := by
  induction p with
  | nil => simpa using splitOnChar_cons_sep c l
  | cons d q ih =>
      have hd : d ≠ c := fun he => h (he ▸ List.mem_cons_self d q)
      have hq : c ∉ q := fun hm => h (List.mem_cons_of_mem d hm)
      rw [List.cons_append, splitOnChar]
      rw [ih hq]
      simp [hd]

/-- First replacement pass of split_hyphen_lines: Python
s.replace of the two-character Windows line ending by a newline, scanning
left to right without overlap. -/
def replCRLF : Str → Str
  | [] => []
  | [c] => [c]
  | c :: d :: rest =>
    if c = '\r' ∧ d = '\n' then '\n' :: replCRLF rest
    else c :: replCRLF (d :: rest)

/-- Newline unification of split_hyphen_lines: replace the Windows line
ending by a newline, then every remaining carriage return by a newline. -/
def normNewlines (s : Str) : Str :=
  (replCRLF s).map (fun c => if c = '\r' then '\n' else c)

theorem cr_not_mem_normNewlines (s : Str) : '\r' ∉ normNewlines s := by
  intro h
  unfold normNewlines at h
  obtain ⟨a, _, ha⟩ := List.mem_map.mp h
  by_cases hc : a = '\r'
  · rw [if_pos hc] at ha
    exact absurd ha (by decide)
  · rw [if_neg hc] at ha
    exact hc ha

theorem replCRLF_eq_self_of_no_cr (s : Str) (h : '\r' ∉ s) : replCRLF s = s := by
  induction s with
  | nil => rfl
  | cons c rest ih =>
      cases rest with
      | nil => rfl
      | cons d t =>
          have hc : c ≠ '\r' := fun he => h (he ▸ List.mem_cons_self c (d :: t))
          rw [replCRLF, if_neg (fun hp => hc hp.1)]
          have hrest : '\r' ∉ d :: t := fun hm => h (List.mem_cons_of_mem c hm)
          rw [ih hrest]

theorem map_eq_self_of_fix (f : Char → Char) (l : Str) (h : ∀ c ∈ l, f c = c) :
    l.map f = l := by
  induction l with
  | nil => rfl
  | cons a t ih =>
      rw [List.map_cons, h a (by simp), ih (fun c hc => h c (List.mem_cons_of_mem a hc))]

theorem normNewlines_eq_self_of_no_cr (s : Str) (h : '\r' ∉ s) :
    normNewlines s = s := by
  unfold normNewlines
  rw [replCRLF_eq_self_of_no_cr s h]
  apply map_eq_self_of_fix
  intro c hc
  have hne : c ≠ '\r' := fun he => h (he ▸ hc)
  rw [if_neg hne]

/-- ASCII lowercasing of one character, as Python str.lower acts on the
letters used here. -/
def pyToLower (c : Char) : Char :=
  if 'A' ≤ c ∧ c ≤ 'Z' then Char.ofNat (c.toNat + 32) else c

/-- Python str.lower over the whole string. -/
def lower (l : Str) : Str := l.map pyToLower

theorem toNat_pyToLower_of_upper (c : Char) (h1 : 'A' ≤ c) (h2 : c ≤ 'Z') :
    (pyToLower c).toNat = c.toNat + 32 := by
  unfold pyToLower
  rw [if_pos ⟨h1, h2⟩]
  have hb1 : 65 ≤ c.toNat := h1
  have hb2 : c.toNat ≤ 90 := h2
  unfold Char.ofNat
  rw [dif_pos (Or.inl (by omega))]
  rfl

theorem pySpace_eq_false_of_toNat (c : Char) (h1 : 33 ≤ c.toNat) :
    pySpace c = false := by
  have h2 : c.toNat ≠ 32 ∧ c.toNat ≠ 9 ∧ c.toNat ≠ 10 ∧ c.toNat ≠ 13 ∧
      c.toNat ≠ 11 ∧ c.toNat ≠ 12 := by omega
  unfold pySpace
  simp only [Bool.or_eq_false_iff, decide_eq_false_iff_not]
  refine ⟨⟨⟨⟨⟨?_, ?_⟩, ?_⟩, ?_⟩, ?_⟩, ?_⟩
  · intro he; subst he; exact h2.1 (by decide)
  · intro he; subst he; exact h2.2.1 (by decide)
  · intro he; subst he; exact h2.2.2.1 (by decide)
  · intro he; subst he; exact h2.2.2.2.1 (by decide)
  · exact h2.2.2.2.2.1
  · exact h2.2.2.2.2.2

theorem pySpace_pyToLower (c : Char) : pySpace (pyToLower c) = pySpace c := by
  by_cases h : 'A' ≤ c ∧ c ≤ 'Z'
  · have ht := toNat_pyToLower_of_upper c h.1 h.2
    have hb1 : 65 ≤ c.toNat := h.1
    have hb2 : c.toNat ≤ 90 := h.2
    rw [pySpace_eq_false_of_toNat c (by omega),
        pySpace_eq_false_of_toNat (pyToLower c) (by omega)]
  · unfold pyToLower
    rw [if_neg h]

/-- Numeric value of an ASCII digit character. -/
def digitVal (c : Char) : Nat := c.toNat - 48

/-- Accumulating pass over the digits of a Python integer literal, with the
underscore-between-digits rule of the language. -/
def digitsLoop (acc : Nat) : Str → Option Nat
  | [] => some acc
  | c :: rest =>
    if c.isDigit then digitsLoop (acc * 10 + digitVal c) rest
    else if c = '_' then
      match rest with
      | [] => none
      | d :: rest2 =>
        if d.isDigit then digitsLoop (acc * 10 + digitVal d) rest2 else none
    else none

/-- Parse a nonempty ASCII digit string (underscores allowed between digits)
to its value: the digit part of Python int parsing. -/
def parseDigits : Str → Option Nat
  | [] => none
  | c :: rest => if c.isDigit then digitsLoop (digitVal c) rest else none

/-- Python int applied to a string: strip whitespace, allow one sign
character, then require digits; any other shape is an error (none here). -/
def pyParseInt (s : Str) : Option Int :=
  match strip s with
  | [] => none
  | c :: rest =>
    if c = '-' then
      match parseDigits rest with
      | some n => some (-(n : Int))
      | none => none
    else if c = '+' then
      match parseDigits rest with
      | some n => some ((n : Int))
      | none => none
    else
      match parseDigits (c :: rest) with
      | some n => some ((n : Int))
      | none => none

/-- safe_int of the script: int(str(x).strip()) with any parse error mapped
to a null result instead of an exception. -/
def safe_int (x : Str) : Option Int := pyParseInt (strip x)

/-- Decimal digit string of a natural number; the first argument is fuel,
always called with more fuel than decimal digits. -/
def natStrAux : Nat → Nat → Str
  | 0, _ => []
  | fuel + 1, n =>
    if n < 10 then [Nat.digitChar n]
    else natStrAux fuel (n / 10) ++ [Nat.digitChar (n % 10)]

/-- Python str of a nonnegative integer. -/
def natStr (n : Nat) : Str := natStrAux (n + 1) n

/-- Python str of an integer: a minus sign followed by digits for negative
values, plain digits otherwise. -/
def intStr (i : Int) : Str :=
  if i < 0 then '-' :: natStr i.natAbs else natStr i.toNat

theorem digitVal_digitChar (d : Nat) (h : d < 10) :
    digitVal (Nat.digitChar d) = d := by
  interval_cases d <;> decide

theorem isDigit_digitChar (d : Nat) (h : d < 10) :
    (Nat.digitChar d).isDigit = true := by
  interval_cases d <;> decide

theorem toNat_bounds_of_isDigit (c : Char) (h : c.isDigit = true) :
    48 ≤ c.toNat ∧ c.toNat ≤ 57 := by
  unfold Char.isDigit at h
  rw [Bool.and_eq_true, decide_eq_true_iff, decide_eq_true_iff] at h
  exact ⟨h.1, h.2⟩

theorem natStrAux_all_digits (fuel : Nat) :
    ∀ n, n < fuel → ∀ c ∈ natStrAux fuel n, c.isDigit = true := by
  induction fuel with
  | zero => intro n hn; omega
  | succ fuel ih =>
      intro n hn c hc
      rw [natStrAux] at hc
      by_cases h10 : n < 10
      · rw [if_pos h10] at hc
        simp at hc
        subst hc
        exact isDigit_digitChar n h10
      · rw [if_neg h10] at hc
        rcases List.mem_append.mp hc with h1 | h1
        · exact ih (n / 10) (by omega) c h1
        · simp at h1
          subst h1
          exact isDigit_digitChar (n % 10) (by omega)

theorem natStrAux_ne_nil (fuel n : Nat) (h : n < fuel) :
    natStrAux fuel n ≠ [] := by
  cases fuel with
  | zero => omega
  | succ fuel =>
      rw [natStrAux]
      by_cases h10 : n < 10
      · simp [h10]
      · rw [if_neg h10]
        simp

/-- The accumulator step shared by digitsLoop and the value computation. -/
def digitStep (a : Nat) (c : Char) : Nat := a * 10 + digitVal c

theorem digitsLoop_all_digits (l : Str) (h : ∀ c ∈ l, c.isDigit = true) :
    ∀ acc, digitsLoop acc l = some (l.foldl digitStep acc) := by
  induction l with
  | nil => intro acc; rfl
  | cons c rest ih =>
      intro acc
      rw [digitsLoop.eq_def]
      simp only []
      rw [if_pos (h c (by simp))]
      rw [List.foldl_cons]
      exact ih (fun x hx => h x (List.mem_cons_of_mem c hx)) (acc * 10 + digitVal c)

theorem parseDigits_all_digits (l : Str) (hne : l ≠ [])
    (h : ∀ c ∈ l, c.isDigit = true) :
    parseDigits l = some (l.foldl digitStep 0) := by
  cases l with
  | nil => exact absurd rfl hne
  | cons c rest =>
      rw [parseDigits, if_pos (h c (by simp))]
      rw [List.foldl_cons]
      have : digitStep 0 c = digitVal c := by unfold digitStep; omega
      rw [← this]
      exact digitsLoop_all_digits rest (fun x hx => h x (List.mem_cons_of_mem c hx))
        (digitStep 0 c)

theorem natStrAux_foldl (fuel : Nat) :
    ∀ n acc, n < fuel →
      (natStrAux fuel n).foldl digitStep acc =
        acc * 10 ^ (natStrAux fuel n).length + n := by
  induction fuel with
  | zero => intro n acc hn; omega
  | succ fuel ih =>
      intro n acc hn
      rw [natStrAux]
      by_cases h10 : n < 10
      · rw [if_pos h10]
        simp [digitStep, digitVal_digitChar n h10]
      · rw [if_neg h10]
        rw [List.foldl_append]
        rw [ih (n / 10) acc (by omega)]
        simp only [List.foldl_cons, List.foldl_nil, List.length_append,
          List.length_cons, List.length_nil]
        unfold digitStep
        rw [digitVal_digitChar (n % 10) (by omega)]
        rw [pow_succ, Nat.add_mul, Nat.add_assoc, ← Nat.mul_assoc]
        have hmod : n / 10 * 10 + n % 10 = n := by omega
        rw [hmod]

theorem natStr_all_digits (n : Nat) : ∀ c ∈ natStr n, c.isDigit = true :=
  natStrAux_all_digits (n + 1) n (by omega)

theorem natStr_ne_nil (n : Nat) : natStr n ≠ [] :=
  natStrAux_ne_nil (n + 1) n (by omega)

theorem parseDigits_natStr (n : Nat) : parseDigits (natStr n) = some n := by
  rw [parseDigits_all_digits (natStr n) (natStr_ne_nil n) (natStr_all_digits n)]
  unfold natStr
  rw [natStrAux_foldl (n + 1) n 0 (by omega)]
  simp

theorem no_space_of_isDigit (c : Char) (h : c.isDigit = true) :
    ¬ pySpace c := by
  have hb := toNat_bounds_of_isDigit c h
  rw [pySpace_eq_false_of_toNat c (by omega)]
  simp

theorem strip_natStr (n : Nat) : strip (natStr n) = natStr n :=
  strip_eq_self_of_no_space (natStr n)
    (fun c hc => no_space_of_isDigit c (natStr_all_digits n c hc))

theorem hyphen_not_digit : ('-').isDigit = false := by decide

theorem plus_not_digit : ('+').isDigit = false := by decide

theorem pyParseInt_natStr (n : Nat) : pyParseInt (natStr n) = some (n : Int) := by
  unfold pyParseInt
  rw [strip_natStr]
  rcases h : natStr n with _ | ⟨c, rest⟩
  · exact absurd h (natStr_ne_nil n)
  · have hc : c.isDigit = true := natStr_all_digits n c (by rw [h]; simp)
    have hminus : c ≠ '-' := by
      intro he; rw [he] at hc; exact absurd hc (by decide)
    have hplus : c ≠ '+' := by
      intro he; rw [he] at hc; exact absurd hc (by decide)
    simp only []
    rw [if_neg hminus, if_neg hplus]
    rw [← h, parseDigits_natStr n]

theorem strip_intStr (i : Int) : strip (intStr i) = intStr i := by
  apply strip_eq_self_of_no_space
  intro c hc
  unfold intStr at hc
  by_cases hneg : i < 0
  · rw [if_pos hneg] at hc
    rcases List.mem_cons.mp hc with h1 | h1
    · subst h1
      rw [pySpace_eq_false_of_toNat '-' (by decide)]
      simp
    · exact no_space_of_isDigit c (natStr_all_digits i.natAbs c h1)
  · rw [if_neg hneg] at hc
    exact no_space_of_isDigit c (natStr_all_digits i.toNat c hc)

theorem safe_int_intStr (i : Int) : safe_int (intStr i) = some i := by
  unfold safe_int
  rw [strip_intStr]
  unfold intStr
  by_cases hneg : i < 0
  · rw [if_pos hneg]
    unfold pyParseInt
    have hs : strip ('-' :: natStr i.natAbs) = '-' :: natStr i.natAbs := by
      have h2 := strip_intStr i
      unfold intStr at h2
      rwa [if_pos hneg] at h2
    rw [hs]
    have habs : (i.natAbs : Int) = -i := by omega
    simp [parseDigits_natStr, habs]
  · rw [if_neg hneg]
    rw [pyParseInt_natStr i.toNat]
    have : (i.toNat : Int) = i := by omega
    rw [this]

theorem parseDigits_none_of_no_digit (l : Str) (h : ∀ c ∈ l, c.isDigit = false) :
    parseDigits l = none := by
  cases l with
  | nil => rfl
  | cons c rest =>
      rw [parseDigits]
      rw [if_neg (by rw [h c (by simp)]; simp)]

theorem pyParseInt_none_of_no_digit (s : Str) (h : ∀ c ∈ s, c.isDigit = false) :
    pyParseInt s = none := by
  unfold pyParseInt
  have hsub : ∀ c ∈ strip s, c.isDigit = false :=
    fun c hc => h c (strip_sublist_subset s c hc)
  rcases hs : strip s with _ | ⟨c, rest⟩
  · rfl
  · have hrest : ∀ x ∈ rest, x.isDigit = false := by
      intro x hx
      exact hsub x (by rw [hs]; exact List.mem_cons_of_mem c hx)
    have hall : ∀ x ∈ c :: rest, x.isDigit = false := by
      intro x hx
      exact hsub x (by rw [hs]; exact hx)
    simp only []
    by_cases h1 : c = '-'
    · rw [if_pos h1, parseDigits_none_of_no_digit rest hrest]
    · rw [if_neg h1]
      by_cases h2 : c = '+'
      · rw [if_pos h2, parseDigits_none_of_no_digit rest hrest]
      · rw [if_neg h2, parseDigits_none_of_no_digit (c :: rest) hall]

theorem safe_int_none_of_no_digit (s : Str) (h : ∀ c ∈ s, c.isDigit = false) :
    safe_int s = none := by
  unfold safe_int
  exact pyParseInt_none_of_no_digit (strip s)
    (fun c hc => h c (strip_sublist_subset s c hc))

theorem safe_int_none_of_blank (s : Str) (h : strip s = []) : safe_int s = none := by
  unfold safe_int
  unfold pyParseInt
  rw [strip_strip_eq, h]

/-- norm_tags of the script: an empty cell gives the empty list; otherwise
split on commas, strip each piece, and keep only pieces that are nonempty
after stripping. -/
def norm_tags (s : Str) : List Str :=
  if s = [] then []
  else ((splitOnChar ',' s).map strip).filter (fun t => t ≠ [])

theorem norm_tags_eq_pipeline (s : Str) :
    norm_tags s = ((splitOnChar ',' s).map strip).filter (fun t => t ≠ []) := by
  unfold norm_tags
  by_cases h : s = []
  · subst h
    rfl
  · rw [if_neg h]

theorem norm_tags_nil_of_blank (s : Str) (h : strip s = []) : norm_tags s = [] := by
  rw [norm_tags_eq_pipeline]
  have hall : ∀ c ∈ s, pySpace c := (strip_eq_nil_iff s).mp h
  rw [List.filter_eq_nil_iff]
  intro t ht
  obtain ⟨p, hp, hpt⟩ := List.mem_map.mp ht
  have : strip p = [] := by
    rw [strip_eq_nil_iff]
    intro c hc
    exact hall c (mem_splitOnChar_subset ',' s p hp c hc)
  rw [← hpt, this]
  simp

theorem norm_tags_no_empty (s : Str) : ∀ t ∈ norm_tags s, t ≠ [] := by
  intro t ht
  rw [norm_tags_eq_pipeline] at ht
  have := List.of_mem_filter ht
  simpa using this

/-- The line regex of split_hyphen_lines: a hyphen, then optional whitespace,
then at least one character, anchored at both ends; the capture group starts
after the greedy whitespace run.  When everything after the hyphen is
whitespace the engine backtracks one character, so the group is the final
whitespace character.  Lines fed to it contain no newline, so the dot matches
every remaining character. -/
def matchHyphen (raw : Str) : Option Str :=
  match raw with
  | [] => none
  | c :: rest =>
    if c = '-' then
      match rest.dropWhile pySpace with
      | [] =>
        match rest.reverse with
        | [] => none
        | d :: _ => some [d]
      | content => some content
    else none

/-- One iteration of the line loop in split_hyphen_lines: strip the line,
skip it when blank, otherwise append the stripped regex capture when the line
matches and the whole stripped line otherwise. -/
def processLine (raw : Str) : Option Str :=
  if strip raw = [] then none
  else
    match matchHyphen (strip raw) with
    | some g => some (strip g)
    | none => some (strip raw)

/-- split_hyphen_lines of the script: empty text gives the empty list;
otherwise unify newlines, strip, split into lines, process each line, and
finally drop empty results. -/
def split_hyphen_lines (s : Str) : List Str :=
  if s = [] then []
  else if strip (normNewlines s) = [] then []
  else
    ((splitOnChar '\n' (strip (normNewlines s))).filterMap processLine).filter
      (fun ln => ln ≠ [])

/-- Modelled from the specification text for one (already trimmed, nonempty)
line: a line starting with a hyphen followed by optional whitespace and some
content yields the trimmed captured content; any other line, including a
bare hyphen with no content, yields the line itself. -/
def specLineBullet (line : Str) : Str :=
  match line with
  | [] => []
  | c :: rest =>
    if c = '-' then (if strip rest = [] then line else strip rest) else line

/-- Bullet-list normalization as the specification words it: unify line
endings, strip the whole text, return the empty list when the result is
empty, then split into lines, drop lines that are empty after trimming, and
turn every remaining line into one bullet via specLineBullet. -/
def bulletListSpec (s : Str) : List Str :=
  if strip (normNewlines s) = [] then []
  else
    (splitOnChar '\n' (strip (normNewlines s))).filterMap (fun raw =>
      if strip raw = [] then none else some (specLineBullet (strip raw)))

theorem rstrip_tail_dropWhile_ne_nil (c : Char) (rest : Str)
    (h : rstrip (c :: rest) = c :: rest) (hne : rest ≠ []) :
    rest.dropWhile pySpace ≠ [] := by
  intro hdrop
  have hall : ∀ x ∈ rest, pySpace x = true := List.dropWhile_eq_nil_iff.mp hdrop
  rw [rstrip_eq_iff_reverse] at h
  rcases hr : rest.reverse with _ | ⟨d, u⟩
  · exact hne (List.reverse_eq_nil_iff.mp hr)
  · have hrev : (c :: rest).reverse = d :: (u ++ [c]) := by
      rw [List.reverse_cons, hr]
      simp
    rw [hrev] at h
    have hd : ¬ pySpace d := dropWhile_cons_eq_self pySpace d (u ++ [c]) h
    have hdm : d ∈ rest := by
      rw [← List.mem_reverse, hr]
      simp
    exact hd (hall d hdm)

theorem strip_nil_eq : strip [] = [] := rfl

theorem lineStep (r : Str) (hfix : strip r = r) (hne : r ≠ []) :
    (match matchHyphen r with
      | some g => some (strip g)
      | none => some r) = some (specLineBullet r) := by
  rcases r with _ | ⟨c, rest⟩
  · exact absurd rfl hne
  · by_cases hc : c = '-'
    · subst hc
      by_cases hrne : rest = []
      · subst hrne
        decide
      · have hrst : rstrip ('-' :: rest) = '-' :: rest := by
          conv_lhs => rw [← hfix]
          rw [rstrip_strip, hfix]
        have hcontent : rest.dropWhile pySpace ≠ [] :=
          rstrip_tail_dropWhile_ne_nil '-' rest hrst hrne
        rcases hdw : rest.dropWhile pySpace with _ | ⟨g0, gs⟩
        · exact absurd hdw hcontent
        · have hsuffix : rest <:+ '-' :: rest := ⟨['-'], rfl⟩
          have hrstrest : rstrip rest = rest :=
            rstrip_eq_self_of_suffix ('-' :: rest) rest hrst hsuffix
          have hlstreq : lstrip rest = g0 :: gs := hdw
          have hstriprest : strip rest = g0 :: gs := by
            unfold strip
            rw [hlstreq]
            apply rstrip_eq_self_of_suffix rest (g0 :: gs) hrstrest
            rw [← hlstreq]
            exact lstrip_suffix rest
          have hstripcontent : strip (g0 :: gs) = g0 :: gs := by
            rw [← hstriprest, strip_strip_eq]
          have hlhs : matchHyphen ('-' :: rest) = some (g0 :: gs) := by
            rw [matchHyphen, if_pos rfl, hdw]
          rw [hlhs]
          have hspec : specLineBullet ('-' :: rest) = g0 :: gs := by
            rw [specLineBullet, if_pos rfl, hstriprest, if_neg (by simp)]
          rw [hspec]
          simp only []
          rw [hstripcontent]
    · have hlhs : matchHyphen (c :: rest) = none := by
        rw [matchHyphen, if_neg hc]
      have hspec : specLineBullet (c :: rest) = c :: rest := by
        rw [specLineBullet, if_neg hc]
      rw [hlhs, hspec]

theorem processLine_eq_spec (raw : Str) :
    processLine raw =
      if strip raw = [] then none else some (specLineBullet (strip raw)) := by
  unfold processLine
  by_cases h0 : strip raw = []
  · rw [if_pos h0, if_pos h0]
  · rw [if_neg h0, if_neg h0]
    exact lineStep (strip raw) (strip_strip_eq raw) h0

theorem specLineBullet_props (r : Str) (hfix : strip r = r) (hne : r ≠ []) :
    specLineBullet r ≠ [] ∧ strip (specLineBullet r) = specLineBullet r ∧
      (∀ x ∈ specLineBullet r, x ∈ r) := by
  rcases r with _ | ⟨c, rest⟩
  · exact absurd rfl hne
  · rw [specLineBullet]
    by_cases hc : c = '-'
    · rw [if_pos hc]
      by_cases hsr : strip rest = []
      · rw [if_pos hsr]
        exact ⟨by simp, hfix, fun x hx => hx⟩
      · rw [if_neg hsr]
        refine ⟨hsr, strip_strip_eq rest, ?_⟩
        intro x hx
        exact List.mem_cons_of_mem c (strip_sublist_subset rest x hx)
    · rw [if_neg hc]
      exact ⟨by simp, hfix, fun x hx => hx⟩

theorem split_hyphen_eq_spec (s : Str) : split_hyphen_lines s = bulletListSpec s := by
  unfold split_hyphen_lines bulletListSpec
  by_cases hs : s = []
  · subst hs
    rw [if_pos rfl, if_pos (by decide : strip (normNewlines ([] : Str)) = [])]
  · rw [if_neg hs]
    by_cases ht : strip (normNewlines s) = []
    · rw [if_pos ht, if_pos ht]
    · rw [if_neg ht, if_neg ht]
      rw [List.filterMap_congr (fun raw _ => processLine_eq_spec raw)]
      apply List.filter_eq_self.mpr
      intro b hb
      obtain ⟨raw, _, hrawsome⟩ := List.mem_filterMap.mp hb
      by_cases h0 : strip raw = []
      · rw [if_pos h0] at hrawsome
        exact absurd hrawsome (by simp)
      · rw [if_neg h0] at hrawsome
        have hb2 : b = specLineBullet (strip raw) := by
          injection hrawsome with h
          exact h.symm
        subst hb2
        have hprops := specLineBullet_props (strip raw) (strip_strip_eq raw) h0
        simpa using hprops.1

theorem split_hyphen_bullet_props (s : Str) :
    ∀ b ∈ split_hyphen_lines s,
      b ≠ [] ∧ strip b = b ∧ '\n' ∉ b ∧ '\r' ∉ b := by
  intro b hb
  rw [split_hyphen_eq_spec] at hb
  unfold bulletListSpec at hb
  by_cases ht : strip (normNewlines s) = []
  · rw [if_pos ht] at hb
    simp at hb
  · rw [if_neg ht] at hb
    obtain ⟨raw, hrawmem, hrawsome⟩ := List.mem_filterMap.mp hb
    by_cases h0 : strip raw = []
    · rw [if_pos h0] at hrawsome
      exact absurd hrawsome (by simp)
    · rw [if_neg h0] at hrawsome
      have hb2 : b = specLineBullet (strip raw) := by
        injection hrawsome with h
        exact h.symm
      subst hb2
      obtain ⟨h1, h2, h3⟩ := specLineBullet_props (strip raw) (strip_strip_eq raw) h0
      refine ⟨h1, h2, ?_, ?_⟩
      · intro hmem
        have hinraw : '\n' ∈ raw := strip_sublist_subset raw _ (h3 _ hmem)
        exact sep_not_mem_splitOnChar '\n' (strip (normNewlines s)) raw hrawmem hinraw
      · intro hmem
        have hinraw : '\r' ∈ raw := strip_sublist_subset raw _ (h3 _ hmem)
        have hint : '\r' ∈ strip (normNewlines s) :=
          mem_splitOnChar_subset '\n' (strip (normNewlines s)) raw hrawmem '\r' hinraw
        exact cr_not_mem_normNewlines s
          (strip_sublist_subset (normNewlines s) '\r' hint)

/-- Re-render a bullet list the way the specification words it: one bullet
per line, each line prefixed with a hyphen and a space, lines joined by
newlines. -/
def renderBullets : List Str → Str
  | [] => []
  | [b] => '-' :: ' ' :: b
  | b :: c :: rest => ('-' :: ' ' :: b) ++ ('\n' :: renderBullets (c :: rest))

theorem rstrip_append_right (l r : Str) (hr : rstrip r = r) (hne : r ≠ []) :
    rstrip (l ++ r) = l ++ r := by
  rw [rstrip_eq_iff_reverse] at hr ⊢
  rw [List.reverse_append]
  rcases hrev : r.reverse with _ | ⟨d, u⟩
  · exact absurd (List.reverse_eq_nil_iff.mp hrev) hne
  · rw [hrev] at hr
    have hd : ¬ pySpace d := dropWhile_cons_eq_self pySpace d u hr
    rw [List.cons_append]
    unfold lstrip
    rw [List.dropWhile_cons, if_neg hd]

theorem rstrip_of_strip_fix (b : Str) (hfix : strip b = b) : rstrip b = b := by
  conv_lhs => rw [← hfix]
  rw [rstrip_strip, hfix]

theorem lstrip_of_strip_fix (b : Str) (hfix : strip b = b) : lstrip b = b := by
  conv_lhs => rw [← hfix]
  rw [lstrip_strip, hfix]

theorem strip_dash_line (b : Str) (hne : b ≠ []) (hfix : strip b = b) :
    strip ('-' :: ' ' :: b) = '-' :: ' ' :: b := by
  apply strip_eq_self_of_parts
  · unfold lstrip
    rw [List.dropWhile_cons, if_neg (by decide : ¬ pySpace '-')]
  · have hex : ('-' :: ' ' :: b) = ['-', ' '] ++ b := rfl
    rw [hex]
    exact rstrip_append_right ['-', ' '] b (rstrip_of_strip_fix b hfix) hne

theorem processLine_dash_line (b : Str) (hne : b ≠ []) (hfix : strip b = b) :
    processLine ('-' :: ' ' :: b) = some b := by
  unfold processLine
  rw [strip_dash_line b hne hfix]
  rw [if_neg (by simp)]
  have hmh : matchHyphen ('-' :: ' ' :: b) = some b := by
    rw [matchHyphen, if_pos rfl]
    have hdw : List.dropWhile pySpace (' ' :: b) = b := by
      rw [List.dropWhile_cons, if_pos (by decide : pySpace ' ' = true)]
      exact lstrip_of_strip_fix b hfix
    rw [hdw]
    rcases b with _ | ⟨x, xs⟩
    · exact absurd rfl hne
    · rfl
  rw [hmh]
  show some (strip b) = some b
  rw [hfix]

theorem newline_not_mem_dash_line (b : Str) (h : '\n' ∉ b) :
    '\n' ∉ ('-' :: ' ' :: b) := by
  intro hm
  rcases List.mem_cons.mp hm with h1 | h1
  · exact absurd h1 (by decide)
  · rcases List.mem_cons.mp h1 with h2 | h2
    · exact absurd h2 (by decide)
    · exact h h2

theorem splitOnChar_renderBullets (bs : List Str) (hne : bs ≠ [])
    (h : ∀ b ∈ bs, '\n' ∉ b) :
    splitOnChar '\n' (renderBullets bs) = bs.map (fun b => '-' :: ' ' :: b) := by
  induction bs with
  | nil => exact absurd rfl hne
  | cons b rest ih =>
      rcases rest with _ | ⟨c, q⟩
      · rw [renderBullets]
        rw [splitOnChar_eq_single '\n' _ (newline_not_mem_dash_line b (h b (by simp)))]
        rfl
      · rw [renderBullets]
        rw [splitOnChar_append_sep '\n' _ _ (newline_not_mem_dash_line b (h b (by simp)))]
        rw [ih (by simp) (fun x hx => h x (List.mem_cons_of_mem b hx))]
        rfl

theorem cr_not_mem_renderBullets (bs : List Str) (h : ∀ b ∈ bs, '\r' ∉ b) :
    '\r' ∉ renderBullets bs := by
  induction bs with
  | nil => simp [renderBullets]
  | cons b rest ih =>
      rcases rest with _ | ⟨c, q⟩
      · rw [renderBullets]
        intro hm
        rcases List.mem_cons.mp hm with h1 | h1
        · exact absurd h1 (by decide)
        · rcases List.mem_cons.mp h1 with h2 | h2
          · exact absurd h2 (by decide)
          · exact h b (by simp) h2
      · rw [renderBullets]
        intro hm
        rcases List.mem_append.mp hm with h1 | h1
        · rcases List.mem_cons.mp h1 with h2 | h2
          · exact absurd h2 (by decide)
          · rcases List.mem_cons.mp h2 with h3 | h3
            · exact absurd h3 (by decide)
            · exact h b (by simp) h3
        · rcases List.mem_cons.mp h1 with h2 | h2
          · exact absurd h2 (by decide)
          · exact ih (fun x hx => h x (List.mem_cons_of_mem b hx)) h2

theorem renderBullets_cons_ne_nil (b : Str) (bs : List Str) :
    renderBullets (b :: bs) ≠ [] := by
  rcases bs with _ | ⟨c, q⟩
  · rw [renderBullets]
    simp
  · rw [renderBullets]
    simp

theorem renderBullets_cons_eq (b : Str) (bs : List Str) :
    ∃ xs, renderBullets (b :: bs) = '-' :: xs := by
  rcases bs with _ | ⟨c, q⟩
  · exact ⟨' ' :: b, by rw [renderBullets]⟩
  · exact ⟨(' ' :: b) ++ ('\n' :: renderBullets (c :: q)), by rw [renderBullets]; rfl⟩

theorem rstrip_renderBullets (bs : List Str)
    (h : ∀ b ∈ bs, b ≠ [] ∧ strip b = b) :
    rstrip (renderBullets bs) = renderBullets bs := by
  induction bs with
  | nil => rfl
  | cons b rest ih =>
      have hb := h b (by simp)
      rcases rest with _ | ⟨c, q⟩
      · rw [renderBullets]
        have hex : ('-' :: ' ' :: b) = ['-', ' '] ++ b := rfl
        rw [hex]
        exact rstrip_append_right ['-', ' '] b (rstrip_of_strip_fix b hb.2) hb.1
      · rw [renderBullets]
        apply rstrip_append_right
        · have hrr : rstrip (renderBullets (c :: q)) = renderBullets (c :: q) :=
            ih (fun x hx => h x (List.mem_cons_of_mem b hx))
          have hex : ('\n' :: renderBullets (c :: q)) =
              ['\n'] ++ renderBullets (c :: q) := rfl
          rw [hex]
          exact rstrip_append_right ['\n'] _ hrr (renderBullets_cons_ne_nil c q)
        · simp

theorem split_hyphen_render (bs : List Str)
    (h : ∀ b ∈ bs, b ≠ [] ∧ strip b = b ∧ '\n' ∉ b ∧ '\r' ∉ b) :
    split_hyphen_lines (renderBullets bs) = bs := by
  rcases bs with _ | ⟨b, rest⟩
  · rfl
  · unfold split_hyphen_lines
    rw [if_neg (renderBullets_cons_ne_nil b rest)]
    have hnocr : '\r' ∉ renderBullets (b :: rest) :=
      cr_not_mem_renderBullets (b :: rest) (fun x hx => (h x hx).2.2.2)
    rw [normNewlines_eq_self_of_no_cr _ hnocr]
    have hstrip : strip (renderBullets (b :: rest)) = renderBullets (b :: rest) := by
      apply strip_eq_self_of_parts
      · obtain ⟨xs, hxs⟩ := renderBullets_cons_eq b rest
        rw [hxs]
        unfold lstrip
        rw [List.dropWhile_cons, if_neg (by decide : ¬ pySpace '-')]
      · exact rstrip_renderBullets (b :: rest) (fun x hx => ⟨(h x hx).1, (h x hx).2.1⟩)
    rw [hstrip]
    rw [if_neg (renderBullets_cons_ne_nil b rest)]
    rw [splitOnChar_renderBullets (b :: rest) (by simp) (fun x hx => (h x hx).2.2.1)]
    rw [List.filterMap_map]
    have hcongr : ∀ x ∈ b :: rest,
        (processLine ∘ (fun b0 => '-' :: ' ' :: b0)) x = some x := by
      intro x hx
      have hx2 := h x hx
      exact processLine_dash_line x hx2.1 hx2.2.1
    rw [List.filterMap_congr hcongr]
    rw [List.filterMap_some]
    apply List.filter_eq_self.mpr
    intro a ha
    simpa using (h a ha).1

/-- A character the slug keeps: ASCII lowercase letter or digit. -/
def isSlugChar (c : Char) : Bool :=
  ('a' ≤ c && c ≤ 'z') || ('0' ≤ c && c ≤ '9')

/-- The regex substitution of make_id: every maximal run of characters
outside the slug alphabet becomes a single hyphen; the flag records whether
the scan is inside such a run. -/
def subAux : Bool → Str → Str
  | _, [] => []
  | inRun, c :: rest =>
    if isSlugChar c then c :: subAux false rest
    else if inRun then subAux true rest
    else '-' :: subAux true rest

/-- The whole substitution pass of make_id. -/
def subNonAlnum (l : Str) : Str := subAux false l

/-- Python strip with a hyphen argument, the second strip of make_id:
remove hyphens at both ends. -/
def stripHyphens (l : Str) : Str :=
  ((l.dropWhile (fun c => c = '-')).reverse.dropWhile (fun c => c = '-')).reverse

/-- The slug base computed by make_id before truncation: strip and lowercase
the title, replace runs outside the slug alphabet by hyphens, strip hyphens
at both ends. -/
def slugBase (title : Str) : Str :=
  stripHyphens (subNonAlnum (lower (strip title)))

/-- Python truthiness of the optional year: an absent year and a year equal
to zero are both falsy. -/
def pyTruthyInt : Option Int → Bool
  | none => false
  | some n => n != 0

/-- make_id of the script.  The test on the year is Python truthiness, so a
present year equal to 0 is treated like an absent year.  The script writes
the fallback with the boolean or, which is the same as getD here because
make_id never produces an empty string (proved below). -/
def make_id (title : Str) (year : Option Int) : Option Str :=
  if pyTruthyInt year then
    some ((slugBase title).take 80 ++ ('-' :: intStr (year.getD 0)))
  else if (slugBase title).take 80 = [] then none
  else some ((slugBase title).take 80)

/-- Modelled from the specification text: turn every character outside the
slug alphabet into a hyphen, then merge consecutive hyphens, so that each
maximal run outside the alphabet yields one hyphen. -/
def collapseHyphens : Str → Str
  | [] => []
  | c :: rest =>
    if c = '-' then '-' :: collapseHyphens (rest.dropWhile (fun d => d = '-'))
    else c :: collapseHyphens rest
termination_by l => l.length
decreasing_by
  · have hle := (List.dropWhile_suffix (fun d => d = '-') (l := rest)).length_le
    simp only [List.length_cons]
    omega
  · simp only [List.length_cons]
    omega

/-- Identifier slug as the specification words it: lowercase, map the runs
outside the slug alphabet to single hyphens, strip hyphens at both ends,
truncate to 80 characters. -/
def slugSpec (title : Str) : Str :=
  (stripHyphens (collapseHyphens ((lower (strip title)).map
    (fun c => if isSlugChar c then c else '-')))).take 80

theorem collapseHyphens_cons_hyphen (rest : Str) :
    collapseHyphens ('-' :: rest) =
      '-' :: collapseHyphens (rest.dropWhile (fun d => d = '-')) := by
  rw [collapseHyphens]
  rw [if_pos rfl]

theorem collapseHyphens_cons_other (c : Char) (rest : Str) (h : c ≠ '-') :
    collapseHyphens (c :: rest) = c :: collapseHyphens rest := by
  rw [collapseHyphens]
  rw [if_neg h]

theorem subAux_eq_collapse (l : Str) :
    subAux false l =
        collapseHyphens (l.map (fun c => if isSlugChar c then c else '-')) ∧
      '-' :: subAux true l =
        collapseHyphens ('-' :: l.map (fun c => if isSlugChar c then c else '-')) := by
  induction l with
  | nil =>
      constructor
      · rw [List.map_nil, collapseHyphens]
        rfl
      · rw [List.map_nil, collapseHyphens_cons_hyphen, List.dropWhile_nil,
          collapseHyphens]
        rfl
  | cons c rest ih =>
      by_cases hc : isSlugChar c
      · have hcc : c ≠ '-' := by
          intro he
          subst he
          exact absurd hc (by decide)
        constructor
        · rw [subAux, if_pos hc, List.map_cons, if_pos hc,
            collapseHyphens_cons_other c _ hcc, ih.1]
        · rw [subAux, if_pos hc, List.map_cons, if_pos hc,
            collapseHyphens_cons_hyphen, List.dropWhile_cons,
            if_neg (by simp [hcc] : ¬ (decide (c = '-') = true)),
            collapseHyphens_cons_other c _ hcc, ih.1]
      · constructor
        · rw [subAux, if_neg hc, if_neg (show ¬ (false = true) by simp),
            List.map_cons, if_neg hc]
          exact ih.2
        · rw [subAux, if_neg hc, if_pos rfl, List.map_cons, if_neg hc,
            collapseHyphens_cons_hyphen, List.dropWhile_cons,
            if_pos (by simp : (decide ('-' = '-')) = true)]
          have h2 := ih.2
          rw [collapseHyphens_cons_hyphen] at h2
          exact h2

theorem slugBase_take_eq_slugSpec (title : Str) :
    (slugBase title).take 80 = slugSpec title := by
  unfold slugBase slugSpec subNonAlnum
  rw [(subAux_eq_collapse (lower (strip title))).1]

theorem make_id_truthy (title : Str) (y : Int) (hy : y ≠ 0) :
    make_id title (some y) =
      some ((slugBase title).take 80 ++ ('-' :: intStr y)) := by
  unfold make_id
  have ht : pyTruthyInt (some y) = true := by
    unfold pyTruthyInt
    simpa using hy
  rw [if_pos ht]
  rfl

theorem pyTruthyInt_some_zero : pyTruthyInt (some 0) = false := by decide

theorem make_id_year_zero (title : Str) :
    make_id title (some 0) = make_id title none := by
  unfold make_id
  rw [pyTruthyInt_some_zero]
  rfl

theorem make_id_ne_some_nil (title : Str) (year : Option Int) (s : Str)
    (h : make_id title year = some s) : s ≠ [] := by
  unfold make_id at h
  by_cases ht : pyTruthyInt year = true
  · rw [if_pos ht] at h
    injection h with h2
    subst h2
    intro hnil
    have hlen := congrArg List.length hnil
    simp at hlen
  · rw [if_neg ht] at h
    by_cases h80 : (slugBase title).take 80 = []
    · rw [if_pos h80] at h
      exact absurd h (by simp)
    · rw [if_neg h80] at h
      injection h with h2
      subst h2
      exact h80

theorem lower_strip_comm (t : Str) : lower (strip t) = strip (lower t) := by
  unfold lower strip lstrip rstrip
  have hp : (pySpace ∘ pyToLower) = pySpace := funext pySpace_pyToLower
  rw [List.dropWhile_map, hp]
  rw [← List.map_reverse, List.dropWhile_map, hp, ← List.map_reverse]

theorem slugBase_congr_lower (t1 t2 : Str) (h : lower t1 = lower t2) :
    slugBase t1 = slugBase t2 := by
  unfold slugBase
  rw [lower_strip_comm, lower_strip_comm, h]

theorem make_id_congr_slug (t1 t2 : Str) (y : Option Int)
    (h : slugBase t1 = slugBase t2) : make_id t1 y = make_id t2 y := by
  unfold make_id
  rw [h]

/-- One output record of the converter, the nine fields of the JSON object. -/
structure Record where
  id : Str
  title : Str
  year_published : Option Int
  date_started : Str
  status : Str
  tags : List Str
  clarity_quality : Str
  relevance : Str
  main_finding : List Str
  interesting_points : List Str
deriving DecidableEq

/-- The HEADERS table of the script. -/
def titleHeader : Str := "Paper Title".data

def yearHeader : Str := "Year Published".data

def dateStartedHeader : Str := "Date of starting reading".data

def statusHeader : Str := "Current Reading Status".data

def tagsHeader : Str := "Tags/Keys (separate by comma)".data

def clarityHeader : Str := "Rate the Clarity and Quality of the Paper".data

def relevanceHeader : Str :=
  "How relevant is this paper to your current research/work?".data

def mainFindingHeader : Str :=
  "Summarize the main finding or conclusion (each start with a hyphen)".data

def interestingHeader : Str := "Interesting points (each start with a hyphen)".data

/-- Lookup in a Python dict modelled as an association list built by repeated
insertion: the binding added last for a key wins. -/
def dictGet (d : List (Str × Str)) (k : Str) : Option Str :=
  match d.reverse.find? (fun p => p.1 = k) with
  | some p => some p.2
  | none => none

/-- The whitespace-normalized header map of the script: stripped header text
to the real header text, later headers overriding earlier ones. -/
def normalizedMap (fieldnames : List Str) : List (Str × Str) :=
  fieldnames.map (fun h => (strip h, h))

/-- get of the script: strip the wanted header, look it up in the normalized
map falling back to the wanted text itself, then return the row's cell for
the resolved key, empty when absent or null-like, stripped. -/
def getCell (fieldnames : List Str) (row : List (Str × Str)) (wanted : Str) : Str :=
  strip ((dictGet row
    ((dictGet (normalizedMap fieldnames) (strip wanted)).getD wanted)).getD [])

/-- parse_likert of the script: the trimmed cell text, with an empty cell
kept as the empty string. -/
def parse_likert (x : Str) : Str :=
  if strip x = [] then [] else strip x

/-- The body of the row loop of the script: resolve the nine fields through
get, normalize each, and assemble the output record; a null synthesized id
falls back to the positional identifier paper-i (the script writes the
fallback with the boolean or, equal to getD because make_id never returns an
empty string). -/
def assembleRecord (fieldnames : List Str) (i : Nat)
    (row : List (Str × Str)) : Record :=
  { id := (make_id (getCell fieldnames row titleHeader)
      (safe_int (getCell fieldnames row yearHeader))).getD ("paper-".data ++ natStr i)
    title := getCell fieldnames row titleHeader
    year_published := safe_int (getCell fieldnames row yearHeader)
    date_started := getCell fieldnames row dateStartedHeader
    status := getCell fieldnames row statusHeader
    tags := norm_tags (getCell fieldnames row tagsHeader)
    clarity_quality := parse_likert (getCell fieldnames row clarityHeader)
    relevance := parse_likert (getCell fieldnames row relevanceHeader)
    main_finding := split_hyphen_lines (getCell fieldnames row mainFindingHeader)
    interesting_points := split_hyphen_lines (getCell fieldnames row interestingHeader) }

/-- The row loop of the script with its 1-based counter. -/
def convertFrom (fieldnames : List Str) : Nat → List (List (Str × Str)) → List Record
  | _, [] => []
  | i, row :: rest =>
    assembleRecord fieldnames i row :: convertFrom fieldnames (i + 1) rest

/-- The whole conversion: every data row of the input (the header row is
consumed by the reader before the loop), in input order, starting at row
counter 1. -/
def convertRows (fieldnames : List Str)
    (rows : List (List (Str × Str))) : List Record :=
  convertFrom fieldnames 1 rows

theorem convertFrom_length (fieldnames : List Str)
    (rows : List (List (Str × Str))) :
    ∀ i, (convertFrom fieldnames i rows).length = rows.length := by
  induction rows with
  | nil => intro i; rfl
  | cons row rest ih =>
      intro i
      rw [convertFrom]
      rw [List.length_cons, List.length_cons, ih]

theorem convertFrom_get (fieldnames : List Str) (rows : List (List (Str × Str))) :
    ∀ i k (hk : k < (convertFrom fieldnames i rows).length)
      (hk2 : k < rows.length),
      (convertFrom fieldnames i rows).get ⟨k, hk⟩ =
        assembleRecord fieldnames (i + k) (rows.get ⟨k, hk2⟩) := by
  induction rows with
  | nil =>
      intro i k hk hk2
      simp at hk2
  | cons row rest ih =>
      intro i k hk hk2
      cases k with
      | zero => rfl
      | succ k =>
          have hk3 : k < (convertFrom fieldnames (i + 1) rest).length := by
            rw [convertFrom_length]
            simpa using hk2
          have hk4 : k < rest.length := by simpa using hk2
          have hstep : (convertFrom fieldnames i (row :: rest)).get ⟨k + 1, hk⟩ =
              (convertFrom fieldnames (i + 1) rest).get ⟨k, hk3⟩ := rfl
          rw [hstep, ih (i + 1) k hk3 hk4]
          have harith : i + 1 + k = i + (k + 1) := by omega
          rw [harith]
          rfl

theorem dictGet_some_spec (d : List (Str × Str)) (k v : Str)
    (h : dictGet d k = some v) : ∃ p ∈ d, p.1 = k ∧ p.2 = v := by
  unfold dictGet at h
  rcases hf : d.reverse.find? (fun p => p.1 = k) with _ | ⟨p⟩
  · rw [hf] at h
    exact absurd h (by simp)
  · rw [hf] at h
    injection h with h2
    refine ⟨p, List.mem_reverse.mp (List.mem_of_find?_eq_some hf), ?_, h2⟩
    have hp := List.find?_some hf
    simpa using hp

theorem dictGet_none_iff (d : List (Str × Str)) (k : Str) :
    dictGet d k = none ↔ ∀ p ∈ d, p.1 ≠ k := by
  unfold dictGet
  rcases hf : d.reverse.find? (fun p => p.1 = k) with _ | ⟨p⟩
  · rw [hf]
    constructor
    · intro _ p hp
      have hnone := List.find?_eq_none.mp hf p (List.mem_reverse.mpr hp)
      simpa using hnone
    · intro _
      rfl
  · rw [hf]
    constructor
    · intro h
      exact absurd h (by simp)
    · intro hall
      exfalso
      have h1 : p ∈ d := List.mem_reverse.mp (List.mem_of_find?_eq_some hf)
      have h2 := List.find?_some hf
      exact hall p h1 (by simpa using h2)

theorem normalizedMap_some (fieldnames : List Str) (k real : Str)
    (h : dictGet (normalizedMap fieldnames) k = some real) :
    real ∈ fieldnames ∧ strip real = k := by
  obtain ⟨p, hp, hk, hv⟩ := dictGet_some_spec (normalizedMap fieldnames) k real h
  obtain ⟨a, ha, hae⟩ := List.mem_map.mp hp
  have ha1 : p.1 = strip a := by rw [← hae]
  have ha2 : p.2 = a := by rw [← hae]
  constructor
  · rw [← hv, ha2]
    exact ha
  · rw [← hv, ha2, ← hk, ha1]

theorem normalizedMap_none (fieldnames : List Str) (k : Str)
    (h : ∀ hd ∈ fieldnames, strip hd ≠ k) :
    dictGet (normalizedMap fieldnames) k = none := by
  rw [dictGet_none_iff]
  intro p hp
  obtain ⟨a, ha, hae⟩ := List.mem_map.mp hp
  rw [← hae]
  exact h a ha

theorem normalizedMap_none_forall (fieldnames : List Str) (k : Str)
    (h : dictGet (normalizedMap fieldnames) k = none) :
    ∀ hd ∈ fieldnames, strip hd ≠ k := by
  intro hd hhd
  have hp := (dictGet_none_iff _ _).mp h (strip hd, hd)
    (List.mem_map.mpr ⟨hd, hhd, rfl⟩)
  simpa using hp

theorem rowGet_none_of_not_field (fieldnames : List Str) (row : List (Str × Str))
    (k : Str) (hkeys : ∀ p ∈ row, p.1 ∈ fieldnames)
    (hmiss : ∀ hd ∈ fieldnames, strip hd ≠ strip k) (hk : strip k = k ∨ k = k) :
    dictGet row k = none := by
  rw [dictGet_none_iff]
  intro p hp he
  rcases hk with h1 | _
  · exact hmiss p.1 (hkeys p hp) (by rw [he, h1])
  · exact hmiss p.1 (hkeys p hp) (by rw [he])

theorem get_of_no_match (fieldnames : List Str) (row : List (Str × Str))
    (wanted : Str) (hkeys : ∀ p ∈ row, p.1 ∈ fieldnames)
    (h : ∀ hd ∈ fieldnames, strip hd ≠ strip wanted) :
    getCell fieldnames row wanted = [] := by
  have hrow : dictGet row wanted = none := by
    rw [dictGet_none_iff]
    intro p hp he
    exact h p.1 (hkeys p hp) (by rw [he])
  unfold getCell
  rw [normalizedMap_none fieldnames (strip wanted) h]
  show strip ((dictGet row wanted).getD []) = []
  rw [hrow]
  rfl

theorem strip_get (fieldnames : List Str) (row : List (Str × Str)) (wanted : Str) :
    strip (getCell fieldnames row wanted) = getCell fieldnames row wanted := by
  unfold getCell
  rw [strip_strip_eq]

theorem get_strip_wanted (fieldnames : List Str) (row : List (Str × Str))
    (wanted : Str) (hkeys : ∀ p ∈ row, p.1 ∈ fieldnames) :
    getCell fieldnames row (strip wanted) = getCell fieldnames row wanted := by
  unfold getCell
  rw [strip_strip_eq]
  rcases hnm : dictGet (normalizedMap fieldnames) (strip wanted) with _ | ⟨real⟩
  · have hmiss := normalizedMap_none_forall fieldnames (strip wanted) hnm
    have hrow1 : dictGet row wanted = none := by
      rw [dictGet_none_iff]
      intro p hp he
      exact hmiss p.1 (hkeys p hp) (by rw [he])
    have hrow2 : dictGet row (strip wanted) = none := by
      rw [dictGet_none_iff]
      intro p hp he
      exact hmiss p.1 (hkeys p hp) (by rw [he, strip_strip_eq])
    show strip ((dictGet row (strip wanted)).getD []) =
      strip ((dictGet row wanted).getD [])
    rw [hrow1, hrow2]
  · rfl

theorem get_of_match (fieldnames : List Str) (row : List (Str × Str))
    (wanted real : Str)
    (h : dictGet (normalizedMap fieldnames) (strip wanted) = some real) :
    real ∈ fieldnames ∧ strip real = strip wanted ∧
      getCell fieldnames row wanted = strip ((dictGet row real).getD []) := by
  have h2 := normalizedMap_some fieldnames (strip wanted) real h
  refine ⟨h2.1, h2.2, ?_⟩
  unfold getCell
  rw [h]
  rfl

/-- C1: bullet-list normalization first unifies line endings and strips the
whole text, returning the empty list when the result is empty; every line
that is nonempty after trimming becomes exactly one bullet, the trimmed
captured content for a hyphen line with content and the entire trimmed line
otherwise (non-hyphen lines are kept, not discarded); blank lines are
dropped and order is preserved.  Stated as: the script's split_hyphen_lines
coincides with bulletListSpec, a definition written from the specification
text, and the specification's third end-to-end scenario evaluates as
stated. -/
theorem C1_bullet_normalization :
    (∀ s : Str, split_hyphen_lines s = bulletListSpec s) ∧
      split_hyphen_lines ("notes without hyphen\nsecond line".data) =
        ["notes without hyphen".data, "second line".data] := by
  refine ⟨split_hyphen_eq_spec, ?_⟩
  decide

/-- C2 counterexample: the claim promises the year is appended whenever the
parsed year is non-null, but for the non-null year 0 the script's truthiness
test skips the append: the id of title a with year 0 is a, not a-0. -/
theorem C2_counterexample :
    make_id "a".data (some 0) = some "a".data ∧
      make_id "a".data (some 0) ≠ some "a-0".data := by
  constructor
  · decide
  · decide

/-- C2 amended: for every title and every truthy year (non-null and
nonzero), the identifier is the slug of the title as the specification words
it (lowercased, maximal runs outside lowercase letters and digits replaced
by single hyphens, hyphens stripped at both ends, truncated to 80) followed
by a hyphen and the decimal year; a parsed year equal to 0 is treated like
an absent one. -/
theorem C2_identifier_synthesis (title : Str) (y : Int) (hy : y ≠ 0) :
    make_id title (some y) = some (slugSpec title ++ ('-' :: intStr y)) := by
  rw [make_id_truthy title y hy, slugBase_take_eq_slugSpec]

theorem C2_identifier_synthesis_witness :
    (2020 : Int) ≠ 0 ∧
      make_id "Deep Learning Survey".data (some 2020) =
        some (slugSpec "Deep Learning Survey".data ++ ('-' :: intStr 2020)) :=
  ⟨by decide,
    C2_identifier_synthesis "Deep Learning Survey".data 2020 (by decide)⟩

/-- C3: integer coercion is total (an optional value, never an exception):
blank cells give null, cells with no digit give null, a malformed mixed cell
gives null, the decimal text of any integer (negatives included) gives
exactly that integer, and the assembled record's year_published field is
exactly the coercion of the year cell. -/
theorem C3_safe_int_total (s : Str) (n : Int) (fieldnames : List Str)
    (row : List (Str × Str)) (i : Nat) :
    (strip s = [] → safe_int s = none) ∧
      ((∀ c ∈ s, c.isDigit = false) → safe_int s = none) ∧
      safe_int (intStr n) = some n ∧
      safe_int "12ab".data = none ∧
      (assembleRecord fieldnames i row).year_published =
        safe_int (getCell fieldnames row yearHeader) :=
  ⟨safe_int_none_of_blank s, safe_int_none_of_no_digit s, safe_int_intStr n,
    by decide, rfl⟩

theorem C3_safe_int_total_witness :
    strip " ".data = [] ∧ safe_int " ".data = none ∧
      safe_int (intStr (-2020)) = some (-2020) :=
  ⟨by decide, (C3_safe_int_total " ".data (-2020) [] [] 1).1 (by decide),
    (C3_safe_int_total " ".data (-2020) [] [] 1).2.2.1⟩

/-- C4: tag normalization gives the empty list on cells that are empty or
whitespace only, and in general equals the comma-split pieces, each trimmed,
with pieces that trim to nothing removed, order preserved and duplicates
kept; the result never contains an empty string (and is a list, never a
null value, by its type). -/
theorem C4_norm_tags_spec (s : Str) :
    (strip s = [] → norm_tags s = []) ∧
      norm_tags s = ((splitOnChar ',' s).map strip).filter (fun t => t ≠ []) ∧
      ∀ t ∈ norm_tags s, t ≠ [] :=
  ⟨norm_tags_nil_of_blank s, norm_tags_eq_pipeline s, norm_tags_no_empty s⟩

theorem C4_norm_tags_spec_witness :
    strip "  ".data = [] ∧ norm_tags "  ".data = [] ∧
      norm_tags "ml, nlp , ".data = ["ml".data, "nlp".data] :=
  ⟨by decide, (C4_norm_tags_spec "  ".data).1 (by decide), by decide⟩

/-- C5: bullet-list normalization is idempotent over re-rendering: rendering
any output, one bullet per line with a hyphen and a space in front, and
feeding it back through the routine returns the identical list. -/
theorem C5_bullet_idempotent (s : Str) :
    split_hyphen_lines (renderBullets (split_hyphen_lines s)) =
      split_hyphen_lines s :=
  split_hyphen_render (split_hyphen_lines s) (split_hyphen_bullet_props s)

/-- C6: a title whose slug is empty together with an absent year makes the
synthesized identifier null; the assembled record then carries the
positional fallback paper-i; in particular a three-row input whose third row
is entirely empty yields id paper-3 at index 3. -/
theorem C6_positional_fallback (t : Str) (fieldnames : List Str)
    (row : List (Str × Str)) (i : Nat) :
    (slugBase t = [] → make_id t none = none) ∧
      (make_id (getCell fieldnames row titleHeader)
          (safe_int (getCell fieldnames row yearHeader)) = none →
        (assembleRecord fieldnames i row).id = "paper-".data ++ natStr i) ∧
      ((convertRows [titleHeader, yearHeader]
          [[(titleHeader, "Alpha".data)], [], []]).get ⟨2, by decide⟩).id =
        "paper-3".data := by
  refine ⟨?_, ?_, ?_⟩
  · intro h
    unfold make_id
    rw [if_neg (by decide : ¬ (pyTruthyInt none = true))]
    rw [h]
    rfl
  · intro h
    show (make_id (getCell fieldnames row titleHeader)
      (safe_int (getCell fieldnames row yearHeader))).getD
        ("paper-".data ++ natStr i) = "paper-".data ++ natStr i
    rw [h]
    rfl
  · decide

theorem C6_positional_fallback_witness :
    slugBase "!?".data = [] ∧ make_id "!?".data none = none :=
  ⟨by decide, (C6_positional_fallback "!?".data [] [] 1).1 (by decide)⟩

/-- C7: the output has exactly one record per data row and preserves input
order with no deduplication: the record at position k is assembled from the
row at position k, with the 1-based counter k+1, for every header list and
every row list. -/
theorem C7_row_count_order (fieldnames : List Str)
    (rows : List (List (Str × Str))) :
    (convertRows fieldnames rows).length = rows.length ∧
      ∀ k (hk : k < (convertRows fieldnames rows).length)
        (hk2 : k < rows.length),
        (convertRows fieldnames rows).get ⟨k, hk⟩ =
          assembleRecord fieldnames (k + 1) (rows.get ⟨k, hk2⟩) := by
  constructor
  · exact convertFrom_length fieldnames rows 1
  · intro k hk hk2
    have h := convertFrom_get fieldnames rows 1 k hk hk2
    rwa [Nat.add_comm 1 k] at h

theorem C7_row_count_order_witness :
    (convertRows [titleHeader] [[(titleHeader, "A".data)], []]).length = 2 ∧
      (convertRows [titleHeader] [[(titleHeader, "A".data)], []]).get
          ⟨1, by decide⟩ =
        assembleRecord [titleHeader] 2 [] := by
  constructor
  · exact (C7_row_count_order [titleHeader] [[(titleHeader, "A".data)], []]).1
  · exact (C7_row_count_order [titleHeader]
      [[(titleHeader, "A".data)], []]).2 1 (by decide) (by decide)

/-- C8: header-tolerant lookup trims the desired header, matches it against
the row's headers by their trimmed form, and returns the matched cell
trimmed; the returned value is always trimmed, looking up the trimmed header
gives the same answer, no matching header gives the empty string (a missing
column never aborts, by totality), and an absent cell under a matched header
also gives the empty string. -/
theorem C8_header_tolerant_lookup (fieldnames : List Str)
    (row : List (Str × Str)) (wanted : Str)
    (hkeys : ∀ p ∈ row, p.1 ∈ fieldnames) :
    strip (getCell fieldnames row wanted) = getCell fieldnames row wanted ∧
      getCell fieldnames row (strip wanted) = getCell fieldnames row wanted ∧
      ((∀ hd ∈ fieldnames, strip hd ≠ strip wanted) →
        getCell fieldnames row wanted = []) ∧
      ∀ real, dictGet (normalizedMap fieldnames) (strip wanted) = some real →
        real ∈ fieldnames ∧ strip real = strip wanted ∧
          getCell fieldnames row wanted = strip ((dictGet row real).getD []) ∧
          (dictGet row real = none → getCell fieldnames row wanted = []) := by
  refine ⟨strip_get fieldnames row wanted,
    get_strip_wanted fieldnames row wanted hkeys,
    get_of_no_match fieldnames row wanted hkeys, ?_⟩
  intro real hreal
  obtain ⟨h1, h2, h3⟩ := get_of_match fieldnames row wanted real hreal
  refine ⟨h1, h2, h3, ?_⟩
  intro hnone
  rw [h3, hnone]
  rfl

theorem C8_header_tolerant_lookup_witness :
    (∀ p ∈ ([] : List (Str × Str)), p.1 ∈ [titleHeader]) ∧
      getCell [titleHeader] [] (strip " Paper Title ".data) =
        getCell [titleHeader] [] " Paper Title ".data :=
  ⟨by simp,
    (C8_header_tolerant_lookup [titleHeader] [] " Paper Title ".data
      (by simp)).2.1⟩

/-- C9: identifier synthesis depends only on the title and year: titles that
agree after lowercasing, and more generally titles with the same slug base,
give the same identifier for every year value. -/
theorem C9_make_id_deterministic (t1 t2 : Str) (y : Option Int) :
    (lower t1 = lower t2 → make_id t1 y = make_id t2 y) ∧
      (slugBase t1 = slugBase t2 → make_id t1 y = make_id t2 y) := by
  constructor
  · intro h
    exact make_id_congr_slug t1 t2 y (slugBase_congr_lower t1 t2 h)
  · exact make_id_congr_slug t1 t2 y

theorem C9_make_id_deterministic_witness :
    lower "Deep Learning".data = lower "DEEP learning".data ∧
      make_id "Deep Learning".data (some 2020) =
        make_id "DEEP learning".data (some 2020) :=
  ⟨by decide,
    (C9_make_id_deterministic "Deep Learning".data "DEEP learning".data
      (some 2020)).1 (by decide)⟩

/-- C10: every assembled record has a nonempty id, so the null alternative
of the output schema never happens: a synthesized id is nonempty (when the
slug is empty but the year truthy it is the bare hyphen-year string) and the
positional fallback paper-i is nonempty. -/
theorem C10_id_nonempty (fieldnames : List Str) (i : Nat)
    (row : List (Str × Str)) (t : Str) (y : Int) :
    (assembleRecord fieldnames i row).id ≠ [] ∧
      (y ≠ 0 → slugBase t = [] →
        make_id t (some y) = some ('-' :: intStr y)) := by
  constructor
  · show (make_id (getCell fieldnames row titleHeader)
      (safe_int (getCell fieldnames row yearHeader))).getD
        ("paper-".data ++ natStr i) ≠ []
    rcases hm : make_id (getCell fieldnames row titleHeader)
        (safe_int (getCell fieldnames row yearHeader)) with _ | ⟨s⟩
    · show "paper-".data ++ natStr i ≠ []
      intro he
      have hlen := congrArg List.length he
      rw [List.length_append, List.length_nil] at hlen
      have h6 : ("paper-".data).length = 6 := rfl
      rw [h6] at hlen
      omega
    · have hs := make_id_ne_some_nil _ _ s hm
      simpa using hs
  · intro hy hslug
    rw [make_id_truthy t y hy, hslug]
    rfl

theorem C10_id_nonempty_witness :
    (2020 : Int) ≠ 0 ∧ slugBase "!!".data = [] ∧
      make_id "!!".data (some 2020) = some ('-' :: intStr 2020) :=
  ⟨by decide, by decide,
    (C10_id_nonempty [] 1 [] "!!".data 2020).2 (by decide) (by decide)⟩
